import Mathlib

/-!
# go-filelister: a verification development

A shallow embedding of `filelister.go` (a directory lister with text, JSON and
YAML renderers) together with theorems about its tree builder, its renderers
and its command-line front end.

Conventions of the embedding

* Go strings are Lean `String`s; byte-level work is done on `List Char`.
* The operating system is a record `FS` of the four calls the program makes
  (`os.Lstat`, `os.Readlink`, the raw directory read behind `ioutil.ReadDir`,
  and `os.Getwd`), each returning `Except String _` (the error text or the
  value).
* Standard output and the log of operating-system calls are carried in an
  explicit `World`; `os.Exit` is the `Outcome.exit` constructor.
* `GetChildren` recurses along the file system, so it takes a fuel argument
  counting nested calls; `Outcome.outOfFuel` is reported when it runs out.
* A `[]*FileTree` is a `List FileTree`; the empty list stands for the nil
  slice (the program only ever builds children with `append` starting from
  nil, so an empty non-nil slice never arises), and nil pointers never arise.
-/

namespace FileLister

/-! ## Library layer: `path/filepath` on Unix -/

/-- Split a path at every slash (the pieces may be empty). -/
def splitSlash : List Char → List (List Char)
  | [] => [[]]
  | c :: cs =>
    if c = '/' then [] :: splitSlash cs
    else
      match splitSlash cs with
      | [] => [[c]]
      | h :: t => (c :: h) :: t

/-- One step of the lexical clean-up of `filepath.Clean`: the stack holds the
elements kept so far, innermost first. -/
def cleanStep (rooted : Bool) (stack : List (List Char)) (elem : List Char) : List (List Char) :=
  if elem = [] ∨ elem = ['.'] then stack
  else if elem = ['.', '.'] then
    match stack with
    | [] => if rooted then [] else [elem]
    | top :: rest => if top = ['.', '.'] then elem :: stack else rest
  else elem :: stack

/-- Join path elements with single slashes. -/
def joinSlash : List (List Char) → List Char
  | [] => []
  | [e] => e
  | e :: es => e ++ '/' :: joinSlash es

/-- The function `filepath.Clean` on character lists. -/
def cleanChars (path : List Char) : List Char :=
  let rooted := path.head? = some '/'
  let stack := (splitSlash path).foldl (cleanStep rooted) []
  let body := joinSlash stack.reverse
  let out := if rooted then '/' :: body else body
  if out = [] then ['.'] else out

/-- The function `filepath.Clean`: the shortest path name equivalent to `path` by purely
lexical processing. -/
def Clean (path : String) : String := String.mk (cleanChars path.data)

/-- The function `filepath.IsAbs` on Unix. -/
def IsAbs (path : String) : Bool := path.data.head? = some '/'

/-- The function `filepath.Join`: the elements from the first non-empty one on, joined with
slashes and cleaned; the empty string when every element is empty. -/
def Join : List String → String
  | [] => ""
  | e :: es => if e ≠ "" then Clean (String.intercalate "/" (e :: es)) else Join es

/-- The part of a path up to and including its last slash. -/
def upToLastSlash : List Char → List Char
  | [] => []
  | c :: cs =>
    if cs.contains '/' then c :: upToLastSlash cs
    else if c = '/' then [c] else []

/-- The function `filepath.Dir`: all but the last element of `path`, cleaned. -/
def Dir (path : String) : String := String.mk (cleanChars (upToLastSlash path.data))

/-! ## Data model -/

/-- A value of `time.Time`. The program never inspects a time; it only hands it to the
serializers, so a time is represented by what its `MarshalJSON` method returns:
the quoted RFC 3339 text, or the error text for a year outside 0..9999. -/
structure Time where
  MarshalJSON : Except String String

/-- The type `os.FileInfo` as far as the program reads it. `ModeSymlink` is
`info.Mode()&os.ModeSymlink != 0`. -/
structure FileInfo where
  Name : String
  Size : Int
  ModTime : Time
  IsDir : Bool
  ModeSymlink : Bool

/-- The struct `FileTree` of the source, field for field. -/
structure FileTree where
  ModifiedTime : Time
  IsLink : Bool
  IsDir : Bool
  LinksTo : String
  Size : Int
  Name : String
  path : String
  Children : List FileTree

/-! ## Operating system, standard output, exit -/

/-- The operating-system calls the program makes. -/
structure FS where
  Lstat : String → Except String FileInfo
  Readlink : String → Except String String
  Readdir : String → Except String (List FileInfo)
  Getwd : Except String String

/-- One operating-system call, as logged. -/
inductive FsCall where
  | Lstat (path : String)
  | Readlink (path : String)
  | ReadDir (path : String)
  | Getwd
  deriving DecidableEq

/-- What the program has done to the outside so far. -/
structure World where
  stdout : String
  calls : List FsCall

/-- The world at program start. -/
def World.start : World := { stdout := "", calls := [] }

/-- Log an operating-system call. -/
def World.record (w : World) (c : FsCall) : World := { w with calls := w.calls ++ [c] }

/-- The function `fmt.Println` on string operands: operands separated by spaces, then a
newline, written to standard output. -/
def Println (w : World) (operands : List String) : World :=
  { w with stdout := w.stdout ++ String.intercalate " " operands ++ "\n" }

/-- Result of running a piece of the program. -/
inductive Outcome (α : Type) where
  | ok (a : α) (w : World)
  | exit (code : Nat) (w : World)
  | outOfFuel

/-- Byte-wise order of Go strings (on valid text the order of UTF-8 bytes is the order
of code points). -/
def strLt : List Char → List Char → Bool
  | _, [] => false
  | [], _ :: _ => true
  | a :: as, b :: bs => if a.toNat < b.toNat then true else if a = b then strLt as bs else false

/-- Insert one entry into a list sorted by file name. -/
def insertByName (x : FileInfo) : List FileInfo → List FileInfo
  | [] => [x]
  | y :: ys => if strLt y.Name.data x.Name.data then y :: insertByName x ys else x :: y :: ys

/-- Sort directory entries by file name. The names in one directory are distinct, so the
sorted order does not depend on the sorting algorithm. -/
def sortByName : List FileInfo → List FileInfo
  | [] => []
  | x :: xs => insertByName x (sortByName xs)

/-- Sorted by file name: no later entry has a name below an earlier one. -/
def SortedByName (l : List FileInfo) : Prop :=
  l.Pairwise (fun a b => strLt b.Name.data a.Name.data = false)

/-- The function `ioutil.ReadDir`: the entries of the directory, sorted by file name. -/
def ioutil_ReadDir (fs : FS) (dirname : String) : Except String (List FileInfo) :=
  match fs.Readdir dirname with
  | .error err => .error err
  | .ok list => .ok (sortByName list)

/-- The function `filepath.Abs` on Unix: an absolute path is cleaned, a relative one is
joined to the working directory. -/
def Abs (fs : FS) (path : String) (w : World) : Except String String × World :=
  if IsAbs path then (.ok (Clean path), w)
  else
    match fs.Getwd with
    | .error err => (.error err, w.record .Getwd)
    | .ok wd => (.ok (Join [wd, path]), w.record .Getwd)

/-! ## The program -/

/-- The function `GetTree` of the source (the metadata reader). -/
def GetTree (fs : FS) (filePath : String) (w : World) : Outcome FileTree :=
  let w1 := w.record (.Lstat filePath)
  match fs.Lstat filePath with
  | .error err => .exit 2 (Println w1 ["Error getting stats on file:", filePath, "\nError:", err])
  | .ok info =>
    let f : FileTree :=
      { path := filePath, ModifiedTime := info.ModTime, Size := info.Size, IsDir := info.IsDir,
        Name := info.Name, IsLink := info.ModeSymlink, LinksTo := "", Children := [] }
    if f.IsLink then
      let w2 := w1.record (.Readlink filePath)
      match fs.Readlink filePath with
      | .error _ => .exit 2 (Println w2 ["Error reading link for file:", f.Name])
      | .ok link =>
        match Abs fs (Join [Dir f.path, link]) w2 with
        | (.error err, w3) => .ok { f with LinksTo := "" } (Println w3 ["Error getting link path:\n", err])
        | (.ok linkPath, w3) => .ok { f with LinksTo := linkPath } w3
    else .ok f w1

/-- The first loop of `GetChildren`: read each listed entry and append its node. -/
def appendChildren (fs : FS) (parentPath : String) :
    List FileInfo → List FileTree → World → Outcome (List FileTree)
  | [], acc, w => .ok acc w
  | child :: rest, acc, w =>
    match GetTree fs (Join [parentPath, child.Name]) w with
    | .ok node w1 => appendChildren fs parentPath rest (acc ++ [node]) w1
    | .exit code w1 => .exit code w1
    | .outOfFuel => .outOfFuel

/-- The second loop of `GetChildren`: run `expand` on each child in stored order. -/
def expandEach (expand : FileTree → World → Outcome FileTree) :
    List FileTree → World → Outcome (List FileTree)
  | [], w => .ok [] w
  | c :: cs, w =>
    match expand c w with
    | .ok c1 w1 =>
      match expandEach expand cs w1 with
      | .ok cs1 w2 => .ok (c1 :: cs1) w2
      | .exit code w2 => .exit code w2
      | .outOfFuel => .outOfFuel
    | .exit code w1 => .exit code w1
    | .outOfFuel => .outOfFuel

/-- The method `GetChildren` of the source (the tree builder). The in-place update of
`f.Children` is returned as the updated node; `fuel` bounds the nesting of calls. -/
def GetChildren (fs : FS) : Nat → Bool → FileTree → World → Outcome FileTree
  | 0, _, _, _ => .outOfFuel
  | fuel + 1, recursive, f, w =>
    if f.IsDir && !f.IsLink then
      let w1 := w.record (.ReadDir f.path)
      match ioutil_ReadDir fs f.path with
      | .error _ => .exit 2 (Println w1 ["Error reading directory:", f.path])
      | .ok children =>
        match appendChildren fs f.path children f.Children w1 with
        | .ok cs w2 =>
          if recursive then
            match expandEach (GetChildren fs fuel recursive) cs w2 with
            | .ok cs1 w3 => .ok { f with Children := cs1 } w3
            | .exit code w3 => .exit code w3
            | .outOfFuel => .outOfFuel
          else .ok { f with Children := cs } w2
        | .exit code w2 => .exit code w2
        | .outOfFuel => .outOfFuel
    else .ok f w

/-- The function `strings.Repeat`. -/
def strRepeat (s : String) : Nat → String
  | 0 => ""
  | n + 1 => s ++ strRepeat s n

/-- The suffix that `writeText` puts after a name. -/
def textSuffix (f : FileTree) : String :=
  if f.IsLink then "* (" ++ f.LinksTo ++ ")"
  else if f.IsDir then "/"
  else ""

mutual
/-- The method `writeText` of the source; the buffer is passed and returned. -/
def writeText (depth : Nat) : FileTree → String → String
  | ⟨mt, isLink, isDir, linksTo, size, nm, path, children⟩, buf =>
    let f : FileTree := ⟨mt, isLink, isDir, linksTo, size, nm, path, children⟩
    let pfx := strRepeat "  " depth
    let suffix := textSuffix f
    let name := if depth = 0 then path else nm
    writeTextChildren (depth + 1) children (buf ++ (pfx ++ name ++ suffix ++ "\n"))
/-- The loop over `f.Children` inside `writeText`. -/
def writeTextChildren (depth : Nat) : List FileTree → String → String
  | [], buf => buf
  | child :: rest, buf => writeTextChildren depth rest (writeText depth child buf)
end

/-- The method `ToText` of the source. -/
def ToText (f : FileTree) : String := writeText 0 f ""

/-! ## Structured renderers -/

/-- What the reflection-based encoders (`encoding/json`, `yaml.v2`) see of a Go value of
the types occurring in `FileTree`. A struct shows its exported fields only, in
declaration order; the empty `slice` is the nil slice. -/
inductive GoValue where
  | time (t : Time)
  | bool (b : Bool)
  | string (s : String)
  | int (i : Int)
  | struct (fields : List (String × GoValue))
  | slice (elems : List GoValue)

mutual
/-- The exported fields of a `FileTree`, in declaration order. The field `path` is
unexported (lower case) and therefore absent. -/
def exported : FileTree → GoValue
  | ⟨mt, isLink, isDir, linksTo, size, nm, _, children⟩ =>
    .struct [("ModifiedTime", .time mt), ("IsLink", .bool isLink), ("IsDir", .bool isDir),
      ("LinksTo", .string linksTo), ("Size", .int size), ("Name", .string nm),
      ("Children", .slice (exportedList children))]
/-- The view of a `[]*FileTree`. -/
def exportedList : List FileTree → List GoValue
  | [] => []
  | c :: cs => exported c :: exportedList cs
end

/-- A lower-case hexadecimal digit. -/
def hexDigit (n : Nat) : Char :=
  if n < 10 then Char.ofNat (48 + n) else Char.ofNat (87 + n)

/-- How `encoding/json` writes one character inside a string, HTML escaping on as
`json.MarshalIndent` has it. Control characters other than newline, carriage return and
tab are written in the six-character form. -/
def jsonEscapeChar (c : Char) : List Char :=
  if c = '"' then ['\\', '"']
  else if c = '\\' then ['\\', '\\']
  else if c = Char.ofNat 10 then ['\\', 'n']
  else if c = Char.ofNat 13 then ['\\', 'r']
  else if c = Char.ofNat 9 then ['\\', 't']
  else if c.toNat < 32 ∨ c = '<' ∨ c = '>' ∨ c = '&' then
    ['\\', 'u', '0', '0', hexDigit (c.toNat / 16), hexDigit (c.toNat % 16)]
  else if c.toNat = 8232 then ['\\', 'u', '2', '0', '2', '8']
  else if c.toNat = 8233 then ['\\', 'u', '2', '0', '2', '9']
  else [c]

/-- A JSON string literal as `encoding/json` writes it. -/
def jsonQuote (s : String) : String :=
  "\"" ++ String.mk (s.data.flatMap jsonEscapeChar) ++ "\""

/-- The indent of `json.MarshalIndent(v, "", "    ")` at a nesting depth. -/
def jsonIndent (depth : Nat) : String := strRepeat "    " depth

mutual
/-- The encoder `json.MarshalIndent(v, "", "    ")` at a nesting depth: the text, or the text of the
first error. -/
def jsonEncode (depth : Nat) : GoValue → Except String String
  | .time t =>
    match t.MarshalJSON with
    | .ok s => .ok s
    | .error e => .error ("json: error calling MarshalJSON for type time.Time: " ++ e)
  | .bool b => .ok (if b then "true" else "false")
  | .string s => .ok (jsonQuote s)
  | .int i => .ok (toString i)
  | .struct [] => .ok "\x7b\x7d"
  | .struct (fld :: flds) =>
    match jsonMembers (depth + 1) (fld :: flds) with
    | .ok body => .ok ("\x7b" ++ body ++ "\n" ++ jsonIndent depth ++ "\x7d")
    | .error e => .error e
  | .slice [] => .ok "null"
  | .slice (v :: vs) =>
    match jsonElems (depth + 1) (v :: vs) with
    | .ok body => .ok ("[" ++ body ++ "\n" ++ jsonIndent depth ++ "]")
    | .error e => .error e
/-- The members of a JSON object, one per line. -/
def jsonMembers (depth : Nat) : List (String × GoValue) → Except String String
  | [] => .ok ""
  | (k, v) :: rest =>
    match jsonEncode depth v with
    | .error e => .error e
    | .ok s =>
      match jsonMembers depth rest with
      | .error e => .error e
      | .ok r =>
        .ok ("\n" ++ jsonIndent depth ++ jsonQuote k ++ ": " ++ s
          ++ (if rest.isEmpty then "" else ",") ++ r)
/-- The elements of a JSON array, one per line. -/
def jsonElems (depth : Nat) : List GoValue → Except String String
  | [] => .ok ""
  | v :: rest =>
    match jsonEncode depth v with
    | .error e => .error e
    | .ok s =>
      match jsonElems depth rest with
      | .error e => .error e
      | .ok r => .ok ("\n" ++ jsonIndent depth ++ s ++ (if rest.isEmpty then "" else ",") ++ r)
end

/-- The call `json.MarshalIndent(v, "", "    ")`. -/
def json_MarshalIndent (v : GoValue) : Except String String := jsonEncode 0 v

/-- The method `ToJson` of the source: on an encoding error the message is printed and the
empty string returned. -/
def ToJson (f : FileTree) (w : World) : String × World :=
  match json_MarshalIndent (.slice (exportedList f.Children)) with
  | .error err => ("", Println w ["Problem serializing to JSON:\n", err])
  | .ok b => (b, w)

/-- The method `ToYaml` of the source. The encoder `yaml.Marshal` of `gopkg.in/yaml.v2` is a
parameter: any function of the reflected value. -/
def ToYaml (yaml_Marshal : GoValue → Except String String) (f : FileTree) (w : World) :
    String × World :=
  match yaml_Marshal (.slice (exportedList f.Children)) with
  | .error err => ("", Println w ["Error converting to yaml:\n", err])
  | .ok b => (b, w)

/-! ## Command line -/

/-- The lines "Build file tree structure" of `main`: `GetTree`, then `GetChildren`. -/
def buildTree (fs : FS) (pth : String) (recursive : Bool) (fuel : Nat) (w : World) :
    Outcome FileTree :=
  match GetTree fs pth w with
  | .ok tree w1 => GetChildren fs fuel recursive tree w1
  | .exit code w1 => .exit code w1
  | .outOfFuel => .outOfFuel

/-- The command line as `flag.Parse` sees it: for each of the three flags, the value given
or nothing. -/
structure Args where
  path : Option String
  recursive : Option Bool
  output : Option String

/-- The function `main` of the source. The three flags take their declared defaults (empty
path, not recursive, output `text`) when omitted. Returning normally is `Outcome.ok`,
which is exit status 0. -/
def main (fs : FS) (yaml_Marshal : GoValue → Except String String) (args : Args)
    (fuel : Nat) : Outcome Unit :=
  let pth := args.path.getD ""
  let recursive := args.recursive.getD false
  let output := args.output.getD "text"
  let w := World.start
  if pth = "" then .exit 1 (Println w ["Must specify path."])
  else if output ≠ "yaml" ∧ output ≠ "json" ∧ output ≠ "text" then
    .exit 2 (Println w ["Invalid output format: ", output])
  else
    match buildTree fs pth recursive fuel w with
    | .ok tree w1 =>
      let printed : String × World :=
        if output = "json" then ToJson tree w1
        else if output = "text" then (ToText tree, w1)
        else if output = "yaml" then ToYaml yaml_Marshal tree w1
        else ("", w1)
      .ok () (Println printed.2 [printed.1])
    | .exit code w1 => .exit code w1
    | .outOfFuel => .outOfFuel

/-- Exit status of a finished run. -/
def Outcome.status {α : Type} : Outcome α → Option Nat
  | .ok _ _ => some 0
  | .exit code _ => some code
  | .outOfFuel => none

/-- The world a finished run leaves behind. -/
def Outcome.world {α : Type} : Outcome α → Option World
  | .ok _ w => some w
  | .exit _ w => some w
  | .outOfFuel => none

/-! ## Text renderer: specification side -/

/-- The indent of the specification: two spaces, once per depth level. -/
def specIndent (depth : Nat) : String := String.join (List.replicate depth "  ")

/-- The displayed name of the specification: the path at depth 0, the base name below. -/
def specDisplayName (depth : Nat) (f : FileTree) : String :=
  if depth = 0 then f.path else f.Name

/-- The suffix of the specification. -/
def specSuffix (f : FileTree) : String :=
  if f.IsLink = true then "* (" ++ f.LinksTo ++ ")"
  else if f.IsDir = true ∧ f.IsLink = false then "/"
  else ""

/-- One line of the specification, newline included. -/
def specLine (depth : Nat) (f : FileTree) : String :=
  specIndent depth ++ specDisplayName depth f ++ specSuffix f ++ "\n"

mutual
/-- Depth-first pre-order list of the nodes of a tree with their depths, children in
stored order. -/
def preorder (depth : Nat) : FileTree → List (Nat × FileTree)
  | ⟨mt, isLink, isDir, linksTo, size, nm, path, children⟩ =>
    (depth, ⟨mt, isLink, isDir, linksTo, size, nm, path, children⟩) :: preorderList (depth + 1) children
/-- Pre-order list of a sequence of sibling trees. -/
def preorderList (depth : Nat) : List FileTree → List (Nat × FileTree)
  | [] => []
  | c :: cs => preorder depth c ++ preorderList depth cs
end

mutual
/-- Number of nodes of a tree. -/
def nodeCount : FileTree → Nat
  | ⟨_, _, _, _, _, _, _, children⟩ => 1 + nodeCountList children
/-- Number of nodes of a sequence of trees. -/
def nodeCountList : List FileTree → Nat
  | [] => 0
  | c :: cs => nodeCount c + nodeCountList cs
end

/-- Number of newline characters of a string, which is its number of
newline-terminated lines. -/
def newlines (s : String) : Nat := s.data.count (Char.ofNat 10)

/-- Concatenation of a list of strings. -/
def concat : List String → String
  | [] => ""
  | s :: ss => s ++ concat ss

/-- A regular file whose name contains a newline character. -/
def newlineTree : FileTree :=
  { ModifiedTime := ⟨.ok "\"2020-01-01T00:00:00Z\""⟩, IsLink := false, IsDir := false,
    LinksTo := "", Size := 0, Name := "a\nb", path := "a\nb", Children := [] }

/-! ## Scenarios -/

/-- The file system of the text scenario: `/tmp/a` holds the file `f.txt` (size 10) and the
directory `b`, which holds `g.txt`. The flag chooses the order in which the operating
system yields the two entries of `/tmp/a`. -/
def scenarioFS (mt : Time) (swap : Bool) : FS where
  Lstat p :=
    if p = "/tmp/a" then .ok ⟨"a", 4096, mt, true, false⟩
    else if p = "/tmp/a/f.txt" then .ok ⟨"f.txt", 10, mt, false, false⟩
    else if p = "/tmp/a/b" then .ok ⟨"b", 4096, mt, true, false⟩
    else if p = "/tmp/a/b/g.txt" then .ok ⟨"g.txt", 0, mt, false, false⟩
    else .error ("lstat " ++ p ++ ": no such file or directory")
  Readlink p := .error ("readlink " ++ p ++ ": invalid argument")
  Readdir p :=
    if p = "/tmp/a" then
      .ok (if swap then [⟨"b", 4096, mt, true, false⟩, ⟨"f.txt", 10, mt, false, false⟩]
        else [⟨"f.txt", 10, mt, false, false⟩, ⟨"b", 4096, mt, true, false⟩])
    else if p = "/tmp/a/b" then .ok [⟨"g.txt", 0, mt, false, false⟩]
    else .error ("open " ++ p ++ ": not a directory")
  Getwd := .ok "/"

/-- The text rendering of a built tree, when building succeeded. -/
def textOf (o : Outcome FileTree) : Option String :=
  match o with
  | .ok t _ => some (ToText t)
  | _ => none

/-- A time with a well-formed JSON form. -/
def sampleTime : Time := ⟨.ok "\"2020-01-01T00:00:00Z\""⟩

/-- A file system in which `/tmp/a/l` is a symbolic link whose target text is the absolute
path `/etc/passwd`. -/
def absLinkFS : FS where
  Lstat p :=
    if p = "/tmp/a/l" then .ok ⟨"l", 11, sampleTime, false, true⟩
    else .error ("lstat " ++ p ++ ": no such file or directory")
  Readlink p :=
    if p = "/tmp/a/l" then .ok "/etc/passwd"
    else .error ("readlink " ++ p ++ ": invalid argument")
  Readdir p := .error ("open " ++ p ++ ": not a directory")
  Getwd := .ok "/"

/-- A regular file named `x` of size 5. -/
def xFile (mt : Time) (path : String) : FileTree :=
  { ModifiedTime := mt, IsLink := false, IsDir := false, LinksTo := "", Size := 5, Name := "x",
    path := path, Children := [] }

/-- A directory root whose only child is the file `x`. -/
def xRoot : FileTree :=
  { ModifiedTime := sampleTime, IsLink := false, IsDir := true, LinksTo := "", Size := 4096,
    Name := "r", path := "/r", Children := [xFile sampleTime "/r/x"] }

/-- Whether `pat` occurs in `s` as a contiguous piece. -/
def occursIn (pat : List Char) : List Char → Bool
  | [] => pat.isEmpty
  | c :: cs => pat.isPrefixOf (c :: cs) || occursIn pat cs

mutual
/-- Agreement of two trees on all public fields, recursively; the field `path` is not
compared. -/
def publicEq : FileTree → FileTree → Prop
  | ⟨mt1, isLink1, isDir1, linksTo1, size1, nm1, _, children1⟩,
    ⟨mt2, isLink2, isDir2, linksTo2, size2, nm2, _, children2⟩ =>
    nm1 = nm2 ∧ mt1 = mt2 ∧ size1 = size2 ∧ isDir1 = isDir2 ∧ isLink1 = isLink2
      ∧ linksTo1 = linksTo2 ∧ publicEqList children1 children2
/-- Agreement of two sequences of trees: same length, agreeing position by position. -/
def publicEqList : List FileTree → List FileTree → Prop
  | [], [] => True
  | c1 :: cs1, c2 :: cs2 => publicEq c1 c2 ∧ publicEqList cs1 cs2
  | [], _ :: _ => False
  | _ :: _, [] => False
end

/-! ## Tree builder: specification side -/

/-- An entry is readable when `GetTree` can read it: `Lstat` succeeds and, for a symbolic
link, `Readlink` succeeds. -/
def Readable (fs : FS) (path : String) : Prop :=
  ∃ info, fs.Lstat path = .ok info
    ∧ (info.ModeSymlink = true → ∃ link, fs.Readlink path = .ok link)

mutual
/-- All nodes of a tree, root first. -/
def nodes : FileTree → List FileTree
  | ⟨mt, isLink, isDir, linksTo, size, nm, path, children⟩ =>
    ⟨mt, isLink, isDir, linksTo, size, nm, path, children⟩ :: nodesList children
/-- All nodes of a sequence of trees. -/
def nodesList : List FileTree → List FileTree
  | [] => []
  | c :: cs => nodes c ++ nodesList cs
end

/-- The leaf rule: a symbolic link has no children and a non-directory has no children. -/
def LeafRule (n : FileTree) : Prop :=
  (n.IsLink = true → n.Children = []) ∧ (n.IsDir = false → n.Children = [])

/-- A file system with a symbolic link to a directory: `/tmp/a` holds the file `f.txt`, the
link `ln` with target text `b`, and the directory `b`, which holds `g.txt`. Reading the
directory `/tmp/a/ln` follows the link and lists `g.txt`. -/
def linkFS : FS where
  Lstat p :=
    if p = "/tmp/a" then .ok ⟨"a", 4096, sampleTime, true, false⟩
    else if p = "/tmp/a/f.txt" then .ok ⟨"f.txt", 10, sampleTime, false, false⟩
    else if p = "/tmp/a/ln" then .ok ⟨"ln", 1, sampleTime, false, true⟩
    else if p = "/tmp/a/b" then .ok ⟨"b", 4096, sampleTime, true, false⟩
    else if p = "/tmp/a/b/g.txt" then .ok ⟨"g.txt", 0, sampleTime, false, false⟩
    else if p = "/tmp/a/ln/g.txt" then .ok ⟨"g.txt", 0, sampleTime, false, false⟩
    else .error ("lstat " ++ p ++ ": no such file or directory")
  Readlink p :=
    if p = "/tmp/a/ln" then .ok "b"
    else .error ("readlink " ++ p ++ ": invalid argument")
  Readdir p :=
    if p = "/tmp/a" then
      .ok [⟨"f.txt", 10, sampleTime, false, false⟩, ⟨"ln", 1, sampleTime, false, true⟩,
        ⟨"b", 4096, sampleTime, true, false⟩]
    else if p = "/tmp/a/b" then .ok [⟨"g.txt", 0, sampleTime, false, false⟩]
    else if p = "/tmp/a/ln" then .ok [⟨"g.txt", 0, sampleTime, false, false⟩]
    else .error ("open " ++ p ++ ": not a directory")
  Getwd := .ok "/"

/-- The node `GetTree` returns for `/tmp/a` in `linkFS`. -/
def linkRoot : FileTree :=
  { ModifiedTime := sampleTime, IsLink := false, IsDir := true, LinksTo := "", Size := 4096,
    Name := "a", path := "/tmp/a", Children := [] }

/-! ## Finite hierarchies -/

/-- A finite hierarchy of entries as the tree builder can see it: a leaf is a non-directory
or a symbolic link (whatever the link points to), a `dir` is a real directory with its
entries in listing order. -/
inductive Hier where
  | leaf (info : FileInfo)
  | dir (info : FileInfo) (entries : List Hier)

/-- The metadata of the top entry of a hierarchy. -/
def Hier.info : Hier → FileInfo
  | .leaf info => info
  | .dir info _ => info

mutual
/-- The file system `fs` shows the hierarchy `h` at `path`: `Lstat` gives the metadata; a
leaf is a non-directory or a readable link; a real directory is listed with the names of
its entries, and each entry is shown at the directory path joined with its name. What
the file system holds behind a link is left open. -/
def Describes (fs : FS) : String → Hier → Prop
  | p, .leaf info =>
    fs.Lstat p = .ok info ∧ (info.IsDir = false ∨ info.ModeSymlink = true)
      ∧ (info.ModeSymlink = true → ∃ link, fs.Readlink p = .ok link)
  | p, .dir info entries =>
    fs.Lstat p = .ok info ∧ info.IsDir = true ∧ info.ModeSymlink = false
      ∧ (∃ raw, fs.Readdir p = .ok raw
          ∧ (sortByName raw).map (fun e => e.Name) = entries.map (fun e => e.info.Name))
      ∧ DescribesList fs p entries
/-- The entries of a directory at `path` are shown by `fs`. -/
def DescribesList (fs : FS) : String → List Hier → Prop
  | _, [] => True
  | p, e :: es => Describes fs (Join [p, e.info.Name]) e ∧ DescribesList fs p es
end

mutual
/-- Depth of a hierarchy: the longest chain of nested entries below the top. -/
def hierDepth : Hier → Nat
  | .leaf _ => 0
  | .dir _ entries => hierDepthList entries
/-- One more than the largest depth among the entries, 0 without entries. -/
def hierDepthList : List Hier → Nat
  | [] => 0
  | e :: es => max (hierDepth e + 1) (hierDepthList es)
end

mutual
/-- Depth of a tree: the longest chain of nested children below the root. -/
def treeDepth : FileTree → Nat
  | ⟨_, _, _, _, _, _, _, children⟩ => treeDepthList children
/-- One more than the largest depth among the trees, 0 without trees. -/
def treeDepthList : List FileTree → Nat
  | [] => 0
  | c :: cs => max (treeDepth c + 1) (treeDepthList cs)
end

mutual
/-- Depth-first pre-order list of the entries of a hierarchy with their depths and their
paths in the file system. -/
def hierPreorder (depth : Nat) : String → Hier → List (Nat × String × FileInfo)
  | p, .leaf info => [(depth, p, info)]
  | p, .dir info entries => (depth, p, info) :: hierPreorderList (depth + 1) p entries
/-- Pre-order list of the entries of the directory at `path`. -/
def hierPreorderList (depth : Nat) : String → List Hier → List (Nat × String × FileInfo)
  | _, [] => []
  | p, e :: es => hierPreorder depth (Join [p, e.info.Name]) e ++ hierPreorderList depth p es
end

/-- A node carries the metadata `info` read at `path`. -/
def Carries (f : FileTree) (path : String) (info : FileInfo) : Prop :=
  f.path = path ∧ f.Name = info.Name ∧ f.IsDir = info.IsDir ∧ f.IsLink = info.ModeSymlink

mutual
/-- The tree `t` is the hierarchy `h` at `path`, node for entry. -/
def Mirrors : FileTree → String → Hier → Prop
  | t, p, .leaf info => Carries t p info ∧ t.Children = []
  | t, p, .dir info entries => Carries t p info ∧ MirrorsList t.Children p entries
/-- The trees are the entries of the directory at `path`, in order. -/
def MirrorsList : List FileTree → String → List Hier → Prop
  | [], _, [] => True
  | c :: cs, p, e :: es => Mirrors c (Join [p, e.info.Name]) e ∧ MirrorsList cs p es
  | [], _, _ :: _ => False
  | _ :: _, _, [] => False
end

/-- What the comparison of a tree with a hierarchy looks at in a node. -/
def nodeView (x : Nat × FileTree) : Nat × String × String × Bool × Bool :=
  (x.1, x.2.path, x.2.Name, x.2.IsDir, x.2.IsLink)

/-- What the comparison of a tree with a hierarchy looks at in an entry. -/
def entryView (x : Nat × String × FileInfo) : Nat × String × String × Bool × Bool :=
  (x.1, x.2.1, x.2.2.Name, x.2.2.IsDir, x.2.2.ModeSymlink)

/-- The hierarchy that `linkFS` shows at `/tmp/a`, entries in listing order; the link `ln`
is a leaf. -/
def linkHier : Hier :=
  .dir ⟨"a", 4096, sampleTime, true, false⟩
    [.dir ⟨"b", 4096, sampleTime, true, false⟩ [.leaf ⟨"g.txt", 0, sampleTime, false, false⟩],
      .leaf ⟨"f.txt", 10, sampleTime, false, false⟩,
      .leaf ⟨"ln", 1, sampleTime, false, true⟩]


/-! ## Text renderer: lemmas -/

theorem concat_append (xs ys : List String) : concat (xs ++ ys) = concat xs ++ concat ys := by
  induction xs with
  | nil => simp [concat]
  | cons x xs ih => simp [concat, ih, String.append_assoc]

theorem strRepeat_eq_specIndent (depth : Nat) :
    strRepeat "  " depth = String.join (List.replicate depth "  ") := by
  have key : ∀ (n : Nat) (acc : String),
      List.foldl (fun r s => r ++ s) acc (List.replicate n "  ") = acc ++ strRepeat "  " n := by
    intro n
    induction n with
    | zero => intro acc; simp [strRepeat]
    | succ n ih =>
      intro acc
      rw [List.replicate_succ, List.foldl_cons, ih, strRepeat, String.append_assoc]
  rw [String.join, key]; simp

theorem textSuffix_eq_specSuffix (f : FileTree) : textSuffix f = specSuffix f := by
  unfold textSuffix specSuffix
  cases f.IsLink <;> cases f.IsDir <;> simp

mutual
theorem writeText_eq (depth : Nat) : ∀ (f : FileTree) (buf : String),
    writeText depth f buf = buf ++ concat ((preorder depth f).map (fun p => specLine p.1 p.2))
  | ⟨mt, isLink, isDir, linksTo, size, nm, path, children⟩, buf => by
    rw [writeText, preorder, writeTextChildren_eq (depth + 1) children]
    simp only [List.map_cons, concat, specLine, specDisplayName, specIndent,
      ← strRepeat_eq_specIndent, textSuffix_eq_specSuffix, String.append_assoc]
theorem writeTextChildren_eq (depth : Nat) : ∀ (cs : List FileTree) (buf : String),
    writeTextChildren depth cs buf
      = buf ++ concat ((preorderList depth cs).map (fun p => specLine p.1 p.2))
  | [], buf => by simp [writeTextChildren, preorderList, concat]
  | c :: cs, buf => by
    rw [writeTextChildren, writeText_eq depth c, writeTextChildren_eq depth cs, preorderList,
      List.map_append, concat_append, String.append_assoc]
end

mutual
theorem preorder_length (depth : Nat) : ∀ f : FileTree, (preorder depth f).length = nodeCount f
  | ⟨mt, isLink, isDir, linksTo, size, nm, path, children⟩ => by
    rw [preorder, nodeCount, List.length_cons, preorderList_length (depth + 1) children]; omega
theorem preorderList_length (depth : Nat) : ∀ cs : List FileTree,
    (preorderList depth cs).length = nodeCountList cs
  | [] => by simp [preorderList, nodeCountList]
  | c :: cs => by
    rw [preorderList, nodeCountList, List.length_append, preorder_length depth c,
      preorderList_length depth cs]
end

theorem preorder_eq (depth : Nat) (f : FileTree) :
    preorder depth f = (depth, f) :: preorderList (depth + 1) f.Children := by
  cases f; rw [preorder]

theorem newlines_append (a b : String) : newlines (a ++ b) = newlines a + newlines b := by
  simp [newlines, String.data_append, List.count_append]

theorem newlines_specIndent (depth : Nat) : newlines (specIndent depth) = 0 := by
  rw [specIndent, ← strRepeat_eq_specIndent]
  induction depth with
  | zero => rfl
  | succ n ih => rw [strRepeat, newlines_append, ih]; rfl

theorem newlines_concat_lines (ps : List (Nat × FileTree))
    (h : ∀ p ∈ ps, newlines (specDisplayName p.1 p.2) = 0 ∧ newlines (specSuffix p.2) = 0) :
    newlines (concat (ps.map (fun p => specLine p.1 p.2))) = ps.length := by
  induction ps with
  | nil => rfl
  | cons p ps ih =>
    have hp := h p (List.mem_cons_self _ _)
    have ih1 := ih (fun q hq => h q (List.mem_cons_of_mem _ hq))
    have hl : newlines (specLine p.1 p.2) = 1 := by
      simp only [specLine, newlines_append, newlines_specIndent, hp.1, hp.2]
      decide
    rw [List.map_cons, concat, newlines_append, ih1, hl, List.length_cons]
    omega

/-! ## Structured renderers: lemmas -/

mutual
theorem exported_congr : ∀ (a b : FileTree), publicEq a b → exported a = exported b
  | ⟨mt1, isLink1, isDir1, linksTo1, size1, nm1, _, children1⟩,
    ⟨mt2, isLink2, isDir2, linksTo2, size2, nm2, _, children2⟩, h => by
    rw [publicEq] at h
    obtain ⟨h1, h2, h3, h4, h5, h6, h7⟩ := h
    rw [exported, exported, exportedList_congr children1 children2 h7, h1, h2, h3, h4, h5, h6]
theorem exportedList_congr : ∀ (as bs : List FileTree), publicEqList as bs →
    exportedList as = exportedList bs
  | [], [], _ => rfl
  | c1 :: cs1, c2 :: cs2, h => by
    rw [publicEqList] at h
    rw [exportedList, exportedList, exported_congr c1 c2 h.1, exportedList_congr cs1 cs2 h.2]
  | [], _ :: _, h => by rw [publicEqList] at h; exact h.elim
  | _ :: _, [], h => by rw [publicEqList] at h; exact h.elim
end

/-! ## Metadata reader and tree builder: lemmas -/

theorem nodes_eq (f : FileTree) : nodes f = f :: nodesList f.Children := by
  cases f; rw [nodes]

theorem mem_nodesList {n : FileTree} {cs : List FileTree} :
    n ∈ nodesList cs ↔ ∃ c ∈ cs, n ∈ nodes c := by
  induction cs with
  | nil => simp [nodesList]
  | cons c cs ih => simp [nodesList, ih]

theorem treeDepth_eq (f : FileTree) : treeDepth f = treeDepthList f.Children := by
  cases f; rw [treeDepth]

theorem forall₂_exists_left {α β : Type} {R : α → β → Prop} {l1 : List α} {l2 : List β}
    (h : List.Forall₂ R l1 l2) : ∀ b ∈ l2, ∃ a ∈ l1, R a b := by
  induction h with
  | nil => intro b hb; simp at hb
  | cons hab _ ih =>
    intro b hb
    rcases List.mem_cons.mp hb with rfl | hb
    · exact ⟨_, List.mem_cons_self _ _, hab⟩
    · obtain ⟨a, ha, hr⟩ := ih b hb
      exact ⟨a, List.mem_cons_of_mem _ ha, hr⟩

/-- What a successful `GetTree` returns. -/
theorem GetTree_ok_inv {fs : FS} {p : String} {w w1 : World} {f : FileTree}
    (h : GetTree fs p w = .ok f w1) :
    ∃ info, fs.Lstat p = .ok info ∧ f.path = p ∧ f.Name = info.Name ∧ f.IsDir = info.IsDir
      ∧ f.IsLink = info.ModeSymlink ∧ f.Size = info.Size ∧ f.ModifiedTime = info.ModTime
      ∧ f.Children = [] ∧ (f.IsLink = false → f.LinksTo = "")
      ∧ (info.ModeSymlink = true → ∃ link, fs.Readlink p = .ok link) := by
  unfold GetTree at h
  cases hl : fs.Lstat p with
  | error e => simp [hl] at h
  | ok info =>
    refine ⟨info, rfl, ?_⟩
    simp only [hl] at h
    cases hs : info.ModeSymlink with
    | false =>
      simp only [hs] at h
      simp at h
      obtain ⟨rfl, -⟩ := h
      simp [hs]
    | true =>
      simp only [hs] at h
      simp at h
      cases hr : fs.Readlink p with
      | error e => simp [hr] at h
      | ok link =>
        simp only [hr] at h
        split at h
        · simp at h
          obtain ⟨rfl, -⟩ := h
          simp [hs]
        · simp at h
          obtain ⟨rfl, -⟩ := h
          simp [hs]

/-- The function `GetTree` succeeds on a readable entry. -/
theorem GetTree_ok_of_readable {fs : FS} {p : String} (w : World) (h : Readable fs p) :
    ∃ f w1, GetTree fs p w = .ok f w1 := by
  obtain ⟨info, hl, hr⟩ := h
  unfold GetTree
  simp only [hl]
  cases hs : info.ModeSymlink with
  | false => simp
  | true =>
    obtain ⟨link, hlink⟩ := hr hs
    simp only [hlink]
    simp
    split <;> simp

theorem appendChildren_ok_inv {fs : FS} {p : String} :
    ∀ (entries : List FileInfo) (acc : List FileTree) (w : World) {cs : List FileTree} {w1 : World},
      appendChildren fs p entries acc w = .ok cs w1 →
      ∃ new, cs = acc ++ new
        ∧ List.Forall₂ (fun e c => ∃ w2 w3, GetTree fs (Join [p, e.Name]) w2 = .ok c w3) entries new
  | [], acc, w, cs, w1, h => by
    simp only [appendChildren, Outcome.ok.injEq] at h
    exact ⟨[], by simp [h.1], List.Forall₂.nil⟩
  | e :: rest, acc, w, cs, w1, h => by
    rw [appendChildren] at h
    cases hg : GetTree fs (Join [p, e.Name]) w with
    | ok node w2 =>
      simp only [hg] at h
      obtain ⟨new, hcs, hall⟩ := appendChildren_ok_inv rest (acc ++ [node]) w2 h
      exact ⟨node :: new, by simp [hcs], List.Forall₂.cons ⟨w, w2, hg⟩ hall⟩
    | exit code w2 => simp [hg] at h
    | outOfFuel => simp [hg] at h

theorem appendChildren_ok_of_readable {fs : FS} {p : String} :
    ∀ (entries : List FileInfo) (acc : List FileTree) (w : World),
      (∀ e ∈ entries, Readable fs (Join [p, e.Name])) →
      ∃ cs w1, appendChildren fs p entries acc w = .ok cs w1
  | [], acc, w, _ => ⟨acc, w, rfl⟩
  | e :: rest, acc, w, h => by
    obtain ⟨node, w2, hg⟩ := GetTree_ok_of_readable w (h e (List.mem_cons_self _ _))
    obtain ⟨cs, w1, hrest⟩ := appendChildren_ok_of_readable rest (acc ++ [node]) w2
      (fun e1 h1 => h e1 (List.mem_cons_of_mem _ h1))
    exact ⟨cs, w1, by rw [appendChildren, hg]; exact hrest⟩

theorem expandEach_ok_inv {g : FileTree → World → Outcome FileTree} :
    ∀ (cs : List FileTree) (w : World) {cs1 : List FileTree} {w1 : World},
      expandEach g cs w = .ok cs1 w1 →
      List.Forall₂ (fun c c1 => ∃ w2 w3, g c w2 = .ok c1 w3) cs cs1
  | [], w, cs1, w1, h => by
    simp only [expandEach, Outcome.ok.injEq] at h
    rw [← h.1]; exact List.Forall₂.nil
  | c :: cs, w, cs1, w1, h => by
    rw [expandEach] at h
    cases hg : g c w with
    | ok c1 w2 =>
      simp only [hg] at h
      cases hr : expandEach g cs w2 with
      | ok cs2 w3 =>
        simp only [hr, Outcome.ok.injEq] at h
        rw [← h.1]
        exact List.Forall₂.cons ⟨w, w2, hg⟩ (expandEach_ok_inv cs w2 hr)
      | exit code w3 => simp [hr] at h
      | outOfFuel => simp [hr] at h
    | exit code w2 => simp [hg] at h
    | outOfFuel => simp [hg] at h

theorem expandEach_ok_of {g : FileTree → World → Outcome FileTree} :
    ∀ (cs : List FileTree) (w : World),
      (∀ c ∈ cs, ∀ w2, ∃ c1 w3, g c w2 = .ok c1 w3) →
      ∃ cs1 w1, expandEach g cs w = .ok cs1 w1
  | [], w, _ => ⟨[], w, rfl⟩
  | c :: cs, w, h => by
    obtain ⟨c1, w2, hg⟩ := h c (List.mem_cons_self _ _) w
    obtain ⟨cs1, w1, hr⟩ := expandEach_ok_of cs w2 (fun c2 h2 => h c2 (List.mem_cons_of_mem _ h2))
    exact ⟨c1 :: cs1, w1, by rw [expandEach, hg]; simp only [hr]⟩

theorem expandEach_mono {g g1 : FileTree → World → Outcome FileTree}
    (hg : ∀ c w c1 w1, g c w = .ok c1 w1 → g1 c w = .ok c1 w1) :
    ∀ (cs : List FileTree) (w : World) (cs1 : List FileTree) (w1 : World),
      expandEach g cs w = .ok cs1 w1 → expandEach g1 cs w = .ok cs1 w1
  | [], w, cs1, w1, h => by simpa [expandEach] using h
  | c :: cs, w, cs1, w1, h => by
    rw [expandEach] at h
    cases hc : g c w with
    | ok c1 w2 =>
      simp only [hc] at h
      cases hr : expandEach g cs w2 with
      | ok cs2 w3 =>
        simp only [hr] at h
        rw [expandEach, hg c w c1 w2 hc]
        simp only [expandEach_mono hg cs w2 cs2 w3 hr]
        exact h
      | exit code w3 => simp [hr] at h
      | outOfFuel => simp [hr] at h
    | exit code w2 => simp [hc] at h
    | outOfFuel => simp [hc] at h

theorem insertByName_perm (x : FileInfo) (l : List FileInfo) :
    (insertByName x l).Perm (x :: l) := by
  induction l with
  | nil => exact List.Perm.refl _
  | cons y ys ih =>
    rw [insertByName]
    split
    · exact (List.Perm.cons y ih).trans (List.Perm.swap x y ys)
    · exact List.Perm.refl _

theorem sortByName_perm (l : List FileInfo) : (sortByName l).Perm l := by
  induction l with
  | nil => exact List.Perm.refl _
  | cons x xs ih => exact (insertByName_perm x _).trans (List.Perm.cons x ih)

theorem char_eq_of_toNat_eq {a b : Char} (h : a.toNat = b.toNat) : a = b := by
  apply Char.ext
  apply UInt32.ext
  exact h

theorem strLt_asymm : ∀ (a b : List Char), strLt a b = true → strLt b a = false
  | _, [], h => by simp [strLt] at h
  | [], _ :: _, _ => by simp [strLt]
  | a :: as, b :: bs, h => by
    rw [strLt] at h ⊢
    by_cases h1 : a.toNat < b.toNat
    · have h2 : ¬ b.toNat < a.toNat := by omega
      have h3 : b ≠ a := fun e => by rw [e] at h1; omega
      simp [h2, h3]
    · simp only [h1, if_false] at h
      by_cases h2 : a = b
      · subst h2
        simp only [if_true] at h
        simp [strLt_asymm as bs h]
      · simp [h2] at h

theorem strLt_negtrans : ∀ (a b c : List Char), strLt a c = true →
    strLt a b = true ∨ strLt b c = true
  | _, _, [], h => by simp [strLt] at h
  | [], [], _ :: _, h => Or.inr h
  | [], _ :: _, _ :: _, _ => Or.inl (by simp [strLt])
  | a :: as, [], c :: cs, _ => Or.inr (by simp [strLt])
  | a :: as, b :: bs, c :: cs, h => by
    rw [strLt] at h
    rw [strLt, strLt]
    by_cases hab : a.toNat < b.toNat
    · simp [hab]
    · by_cases hbc : b.toNat < c.toNat
      · simp [hbc]
      · simp only [hab, hbc, if_false]
        by_cases hac : a.toNat < c.toNat
        · omega
        · simp only [hac, if_false] at h
          by_cases e1 : a = c
          · subst e1
            simp only [if_true] at h
            have e2 : a = b := char_eq_of_toNat_eq (by omega)
            subst e2
            simpa using strLt_negtrans as bs cs h
          · simp [e1] at h

theorem insertByName_sorted (x : FileInfo) : ∀ (l : List FileInfo),
    SortedByName l → SortedByName (insertByName x l)
  | [], _ => by simp [insertByName, SortedByName]
  | y :: ys, h => by
    unfold SortedByName at h ⊢
    rw [List.pairwise_cons] at h
    rw [insertByName]
    by_cases hyx : strLt y.Name.data x.Name.data = true
    · rw [if_pos hyx, List.pairwise_cons]
      refine ⟨?_, insertByName_sorted x ys h.2⟩
      intro z hz
      rcases List.mem_cons.mp ((insertByName_perm x ys).mem_iff.mp hz) with rfl | hz
      · exact strLt_asymm _ _ hyx
      · exact h.1 z hz
    · have hyx1 : strLt y.Name.data x.Name.data = false := by simpa using hyx
      rw [if_neg hyx, List.pairwise_cons]
      refine ⟨?_, List.pairwise_cons.mpr h⟩
      intro z hz
      rcases List.mem_cons.mp hz with rfl | hz
      · exact hyx1
      · have hzy := h.1 z hz
        cases hzx : strLt z.Name.data x.Name.data with
        | false => rfl
        | true =>
          rcases strLt_negtrans _ y.Name.data _ hzx with h1 | h1
          · rw [hzy] at h1; exact absurd h1 (by decide)
          · rw [hyx1] at h1; exact absurd h1 (by decide)

theorem sortByName_sorted : ∀ (l : List FileInfo), SortedByName (sortByName l)
  | [] => by simp [sortByName, SortedByName]
  | x :: xs => by rw [sortByName]; exact insertByName_sorted x _ (sortByName_sorted xs)

/-- The method `GetChildren` on a leaf (a symbolic link or a non-directory) changes nothing. -/
theorem GetChildren_leaf (fs : FS) (fuel : Nat) (recursive : Bool) (f : FileTree) (w : World)
    (h : f.IsLink = true ∨ f.IsDir = false) :
    GetChildren fs (fuel + 1) recursive f w = .ok f w := by
  rw [GetChildren]
  rcases h with h | h <;> simp [h]

/-- The non-recursive `GetChildren` on a readable real directory. -/
theorem GetChildren_false_ok (fs : FS) (D : FileTree) (raw : List FileInfo) (fuel : Nat)
    (w : World) (hdir : D.IsDir = true) (hlink : D.IsLink = false)
    (hlist : fs.Readdir D.path = .ok raw)
    (hread : ∀ e ∈ raw, Readable fs (Join [D.path, e.Name])) :
    ∃ new w1, GetChildren fs (fuel + 1) false D w
        = .ok { D with Children := D.Children ++ new } w1
      ∧ List.Forall₂ (fun e c => ∃ w2 w3, GetTree fs (Join [D.path, e.Name]) w2 = .ok c w3)
          (sortByName raw) new := by
  have hread1 : ∀ e ∈ sortByName raw, Readable fs (Join [D.path, e.Name]) :=
    fun e he => hread e ((sortByName_perm raw).mem_iff.mp he)
  obtain ⟨cs, w1, hcs⟩ := appendChildren_ok_of_readable (sortByName raw) D.Children
    (w.record (.ReadDir D.path)) hread1
  obtain ⟨new, hnew, hall⟩ := appendChildren_ok_inv _ _ _ hcs
  refine ⟨new, w1, ?_, hall⟩
  rw [GetChildren]
  simp only [hdir, hlink, ioutil_ReadDir, hlist, hcs, hnew]
  simp

/-- The method `GetChildren` keeps the leaf rule on every node. -/
theorem GetChildren_preserves_leafRule (fs : FS) (recursive : Bool) :
    ∀ (fuel : Nat) (f : FileTree) (w : World) (f1 : FileTree) (w1 : World),
      GetChildren fs fuel recursive f w = .ok f1 w1 →
      (∀ n ∈ nodes f, LeafRule n) → ∀ n ∈ nodes f1, LeafRule n := by
  intro fuel
  induction fuel with
  | zero => intro f w f1 w1 h; simp [GetChildren] at h
  | succ fuel ih =>
    intro f w f1 w1 h hinv
    rw [GetChildren] at h
    by_cases hc : (f.IsDir && !f.IsLink) = true
    · simp only [hc, if_true] at h
      cases hl : ioutil_ReadDir fs f.path with
      | error e => simp [hl] at h
      | ok children =>
        simp only [hl] at h
        cases ha : appendChildren fs f.path children f.Children (w.record (.ReadDir f.path)) with
        | exit code w2 => simp [ha] at h
        | outOfFuel => simp [ha] at h
        | ok cs w2 =>
          simp only [ha] at h
          obtain ⟨new, hcs, hnew⟩ := appendChildren_ok_inv _ _ _ ha
          have hcsinv : ∀ c ∈ cs, ∀ n ∈ nodes c, LeafRule n := by
            intro c hc1 n hn
            rw [hcs, List.mem_append] at hc1
            rcases hc1 with hc1 | hc1
            · apply hinv
              rw [nodes_eq]
              exact List.mem_cons_of_mem _ (mem_nodesList.mpr ⟨c, hc1, hn⟩)
            · obtain ⟨e, -, w3, w4, hg⟩ := forall₂_exists_left hnew c hc1
              obtain ⟨info, -, -, -, -, -, -, -, hch, -⟩ := GetTree_ok_inv hg
              rw [nodes_eq, hch] at hn
              simp only [nodesList, List.mem_singleton] at hn
              subst hn
              exact ⟨fun _ => hch, fun _ => hch⟩
          have hroot : ∀ kids : List FileTree, LeafRule { f with Children := kids } := by
            intro kids
            simp only [Bool.and_eq_true, Bool.not_eq_true'] at hc
            constructor
            · intro h1; simp [hc.2] at h1
            · intro h1; simp [hc.1] at h1
          cases hrec : recursive with
          | false =>
            simp only [hrec] at h
            simp at h
            obtain ⟨rfl, -⟩ := h
            intro n hn
            rw [nodes_eq] at hn
            rcases List.mem_cons.mp hn with rfl | hn
            · exact hroot cs
            · obtain ⟨c, hc1, hn1⟩ := mem_nodesList.mp hn
              exact hcsinv c hc1 n hn1
          | true =>
            simp only [hrec, if_true] at h
            cases he : expandEach (GetChildren fs fuel true) cs w2 with
            | exit code w3 => simp [he] at h
            | outOfFuel => simp [he] at h
            | ok cs1 w3 =>
              simp only [he, Outcome.ok.injEq] at h
              obtain ⟨rfl, -⟩ := h
              have hall := expandEach_ok_inv _ _ he
              intro n hn
              rw [nodes_eq] at hn
              rcases List.mem_cons.mp hn with rfl | hn
              · exact hroot cs1
              · obtain ⟨c1, hc1, hn1⟩ := mem_nodesList.mp hn
                obtain ⟨c, hcmem, w4, w5, hg⟩ := forall₂_exists_left hall c1 hc1
                exact ih c w4 c1 w5 (hrec ▸ hg) (hcsinv c hcmem) n hn1
    · simp only [hc] at h
      simp at h
      obtain ⟨rfl, -⟩ := h
      exact hinv

/-- Every node of a tree built by `GetTree` and `GetChildren` obeys the leaf rule. -/
theorem buildTree_leafRule {fs : FS} {pth : String} {recursive : Bool} {fuel : Nat}
    {w w1 : World} {t : FileTree} (h : buildTree fs pth recursive fuel w = .ok t w1) :
    ∀ n ∈ nodes t, LeafRule n := by
  unfold buildTree at h
  cases hg : GetTree fs pth w with
  | exit code w2 => simp [hg] at h
  | outOfFuel => simp [hg] at h
  | ok f w2 =>
    simp only [hg] at h
    obtain ⟨info, -, -, -, -, -, -, -, hch, -⟩ := GetTree_ok_inv hg
    refine GetChildren_preserves_leafRule fs recursive fuel f w2 t w1 h ?_
    intro n hn
    rw [nodes_eq, hch] at hn
    simp only [nodesList, List.mem_singleton] at hn
    subst hn
    exact ⟨fun _ => hch, fun _ => hch⟩

/-- More fuel does not change a finished `GetChildren`. -/
theorem GetChildren_fuel_mono (fs : FS) (recursive : Bool) :
    ∀ (fuel : Nat) (f : FileTree) (w : World) (f1 : FileTree) (w1 : World),
      GetChildren fs fuel recursive f w = .ok f1 w1 →
      ∀ k, fuel ≤ k → GetChildren fs k recursive f w = .ok f1 w1 := by
  intro fuel
  induction fuel with
  | zero => intro f w f1 w1 h; simp [GetChildren] at h
  | succ fuel ih =>
    intro f w f1 w1 h k hk
    obtain ⟨k, rfl⟩ : ∃ k1, k = k1 + 1 := ⟨k - 1, by omega⟩
    rw [GetChildren] at h ⊢
    by_cases hc : (f.IsDir && !f.IsLink) = true
    · simp only [hc, if_true] at h ⊢
      cases hl : ioutil_ReadDir fs f.path with
      | error e => simp [hl] at h
      | ok children =>
        simp only [hl] at h ⊢
        cases ha : appendChildren fs f.path children f.Children (w.record (.ReadDir f.path)) with
        | exit code w2 => simp [ha] at h
        | outOfFuel => simp [ha] at h
        | ok cs w2 =>
          simp only [ha] at h ⊢
          cases hrec : recursive with
          | false => simp only [hrec] at h ⊢; exact h
          | true =>
            simp only [hrec, if_true] at h ⊢
            cases he : expandEach (GetChildren fs fuel true) cs w2 with
            | exit code w3 => simp [he] at h
            | outOfFuel => simp [he] at h
            | ok cs1 w3 =>
              simp only [he] at h
              rw [expandEach_mono
                (fun c w c1 w1 hc1 => hrec ▸ ih c w c1 w1 (hrec ▸ hc1) k (by omega)) cs w2 cs1 w3 he]
              exact h
    · simp only [hc] at h ⊢
      exact h

/-! ## Finite hierarchies: lemmas -/

theorem describes_lstat {fs : FS} {p : String} {h : Hier} (hd : Describes fs p h) :
    fs.Lstat p = .ok h.info := by
  cases h with
  | leaf info => rw [Describes] at hd; exact hd.1
  | dir info es => rw [Describes] at hd; exact hd.1

theorem describes_readable {fs : FS} {p : String} {h : Hier} (hd : Describes fs p h) :
    Readable fs p := by
  cases h with
  | leaf info => rw [Describes] at hd; exact ⟨info, hd.1, hd.2.2⟩
  | dir info es =>
    rw [Describes] at hd
    exact ⟨info, hd.1, fun hs => by rw [hd.2.2.1] at hs; exact absurd hs (by decide)⟩

theorem describesList_mem {fs : FS} {p : String} :
    ∀ {es : List Hier}, DescribesList fs p es →
      ∀ e ∈ es, Describes fs (Join [p, e.info.Name]) e
  | [], _, e, he => by simp at he
  | e0 :: es, hd, e, he => by
    rw [DescribesList] at hd
    rcases List.mem_cons.mp he with rfl | he
    · exact hd.1
    · exact describesList_mem hd.2 e he

theorem carries_of_describes {fs : FS} {p : String} {h : Hier} {f : FileTree} {w w1 : World}
    (hd : Describes fs p h) (hg : GetTree fs p w = .ok f w1) :
    Carries f p h.info ∧ f.Children = [] := by
  obtain ⟨info, hl, hp, hn, hdir, hlink, -, -, hch, -⟩ := GetTree_ok_inv hg
  rw [describes_lstat hd] at hl
  cases hl
  exact ⟨⟨hp, hn, hdir, hlink⟩, hch⟩

theorem carries_of_listing {fs : FS} {p : String} :
    ∀ (es : List Hier) (listing : List FileInfo) (cs : List FileTree),
      listing.map (fun e => e.Name) = es.map (fun e => e.info.Name) →
      DescribesList fs p es →
      List.Forall₂ (fun e c => ∃ w2 w3, GetTree fs (Join [p, e.Name]) w2 = .ok c w3) listing cs →
      List.Forall₂ (fun c e => Carries c (Join [p, e.info.Name]) e.info ∧ c.Children = []) cs es
  | [], [], cs, _, _, hall => by cases hall; exact List.Forall₂.nil
  | [], _ :: _, cs, hn, _, _ => by simp at hn
  | _ :: _, [], cs, hn, _, _ => by simp at hn
  | e :: es, l :: ls, cs, hn, hd, hall => by
    cases hall with
    | cons h1 h2 =>
      simp only [List.map_cons, List.cons.injEq] at hn
      rw [DescribesList] at hd
      obtain ⟨w2, w3, hg⟩ := h1
      rw [hn.1] at hg
      exact List.Forall₂.cons (carries_of_describes hd.1 hg)
        (carries_of_listing es ls _ hn.2 hd.2 h2)

mutual
/-- The recursive `GetChildren`, run with enough fuel on the fresh node of a described
entry, returns the tree of the hierarchy. -/
theorem expand_mirrors (fs : FS) :
    ∀ (h : Hier) (p : String) (f : FileTree) (fuel : Nat) (w : World),
      Describes fs p h → Carries f p h.info → f.Children = [] → hierDepth h + 1 ≤ fuel →
      ∃ f1 w1, GetChildren fs fuel true f w = .ok f1 w1 ∧ Mirrors f1 p h
  | .leaf info, p, f, fuel, w, hd, hc, hch, hfuel => by
    obtain ⟨k, rfl⟩ : ∃ k, fuel = k + 1 := ⟨fuel - 1, by omega⟩
    rw [Describes] at hd
    obtain ⟨hp, hn, hdir, hlink⟩ := hc
    have hleaf : f.IsLink = true ∨ f.IsDir = false := by
      simp only [Hier.info] at hdir hlink
      rw [hdir, hlink]
      exact hd.2.1.symm
    exact ⟨f, w, GetChildren_leaf fs k true f w hleaf, by
      rw [Mirrors]; exact ⟨⟨hp, hn, hdir, hlink⟩, hch⟩⟩
  | .dir info es, p, f, fuel, w, hd, hc, hch, hfuel => by
    obtain ⟨k, rfl⟩ : ∃ k, fuel = k + 1 := ⟨fuel - 1, by omega⟩
    rw [Describes] at hd
    obtain ⟨-, hisdir, hnotlink, ⟨raw, hraw, hnames⟩, hdl⟩ := hd
    obtain ⟨hp, hn, hdir, hlink⟩ := hc
    simp only [Hier.info] at hn hdir hlink
    rw [hisdir] at hdir
    rw [hnotlink] at hlink
    have hread : ∀ e ∈ sortByName raw, Readable fs (Join [f.path, e.Name]) := by
      intro e he
      have hmem : e.Name ∈ es.map (fun e => e.info.Name) := by
        rw [← hnames]; exact List.mem_map_of_mem _ he
      obtain ⟨e1, he1, hname⟩ := List.mem_map.mp hmem
      rw [hp, ← hname]
      exact describes_readable (describesList_mem hdl e1 he1)
    obtain ⟨cs, w2, hcs⟩ := appendChildren_ok_of_readable (sortByName raw) f.Children
      (w.record (.ReadDir f.path)) hread
    obtain ⟨new, hnew, hall⟩ := appendChildren_ok_inv _ _ _ hcs
    rw [hch, List.nil_append] at hnew
    subst hnew
    rw [hp] at hall
    have hcar := carries_of_listing es (sortByName raw) cs hnames hdl hall
    rw [hierDepth] at hfuel
    obtain ⟨cs1, w3, hexp, hmir⟩ := expandList_mirrors fs es p cs k w2 hdl hcar (by omega)
    refine ⟨{ f with Children := cs1 }, w3, ?_, ?_⟩
    · rw [← hp] at hraw
      rw [GetChildren]
      simp only [hdir, hlink, ioutil_ReadDir, hraw, hcs, hexp]
      simp
    · rw [Mirrors]
      exact ⟨⟨hp, hn, by simp [Hier.info, hdir, hisdir], by simp [Hier.info, hlink, hnotlink]⟩, hmir⟩
/-- The second loop of the recursive `GetChildren` on the fresh nodes of the entries of a
described directory. -/
theorem expandList_mirrors (fs : FS) :
    ∀ (es : List Hier) (p : String) (cs : List FileTree) (fuel : Nat) (w : World),
      DescribesList fs p es →
      List.Forall₂ (fun c e => Carries c (Join [p, e.info.Name]) e.info ∧ c.Children = []) cs es →
      hierDepthList es ≤ fuel →
      ∃ cs1 w1, expandEach (GetChildren fs fuel true) cs w = .ok cs1 w1 ∧ MirrorsList cs1 p es
  | [], p, cs, fuel, w, _, hall, _ => by
    cases hall
    exact ⟨[], w, rfl, by rw [MirrorsList]; trivial⟩
  | e :: es, p, cs, fuel, w, hd, hall, hfuel => by
    cases hall with
    | cons h1 h2 =>
      rename_i c cs0
      rw [DescribesList] at hd
      rw [hierDepthList] at hfuel
      obtain ⟨c1, w2, hc1, hm1⟩ := expand_mirrors fs e (Join [p, e.info.Name]) c fuel w hd.1
        h1.1 h1.2 (by omega)
      obtain ⟨cs1, w3, hcs1, hm2⟩ := expandList_mirrors fs es p cs0 fuel w2 hd.2 h2 (by omega)
      refine ⟨c1 :: cs1, w3, ?_, ?_⟩
      · rw [expandEach, hc1]
        simp only [hcs1]
      · rw [MirrorsList]
        exact ⟨hm1, hm2⟩
end

mutual
theorem mirrors_depth : ∀ (h : Hier) (t : FileTree) (p : String),
    Mirrors t p h → treeDepth t = hierDepth h
  | .leaf info, t, p, hm => by
    rw [Mirrors] at hm
    rw [treeDepth_eq, hm.2, hierDepth, treeDepthList]
  | .dir info es, t, p, hm => by
    rw [Mirrors] at hm
    rw [treeDepth_eq, hierDepth, mirrorsList_depth es t.Children p hm.2]
theorem mirrorsList_depth : ∀ (es : List Hier) (cs : List FileTree) (p : String),
    MirrorsList cs p es → treeDepthList cs = hierDepthList es
  | [], [], _, _ => by rw [treeDepthList, hierDepthList]
  | [], _ :: _, _, hm => by rw [MirrorsList] at hm; exact hm.elim
  | _ :: _, [], _, hm => by rw [MirrorsList] at hm; exact hm.elim
  | e :: es, c :: cs, p, hm => by
    rw [MirrorsList] at hm
    rw [treeDepthList, hierDepthList, mirrors_depth e c _ hm.1, mirrorsList_depth es cs p hm.2]
end

mutual
theorem mirrors_preorder : ∀ (h : Hier) (t : FileTree) (p : String) (d : Nat),
    Mirrors t p h → (preorder d t).map nodeView = (hierPreorder d p h).map entryView
  | .leaf info, t, p, d, hm => by
    rw [Mirrors] at hm
    obtain ⟨⟨hp, hn, hdir, hlink⟩, hch⟩ := hm
    rw [preorder_eq, hch, hierPreorder, preorderList]
    simp [nodeView, entryView, hp, hn, hdir, hlink]
  | .dir info es, t, p, d, hm => by
    rw [Mirrors] at hm
    obtain ⟨⟨hp, hn, hdir, hlink⟩, hch⟩ := hm
    rw [preorder_eq, hierPreorder, List.map_cons, List.map_cons,
      mirrorsList_preorder es t.Children p (d + 1) hch]
    simp [nodeView, entryView, hp, hn, hdir, hlink]
theorem mirrorsList_preorder : ∀ (es : List Hier) (cs : List FileTree) (p : String) (d : Nat),
    MirrorsList cs p es →
      (preorderList d cs).map nodeView = (hierPreorderList d p es).map entryView
  | [], [], _, _, _ => by rw [preorderList, hierPreorderList]; rfl
  | [], _ :: _, _, _, hm => by rw [MirrorsList] at hm; exact hm.elim
  | _ :: _, [], _, _, hm => by rw [MirrorsList] at hm; exact hm.elim
  | e :: es, c :: cs, p, d, hm => by
    rw [MirrorsList] at hm
    rw [preorderList, hierPreorderList, List.map_append, List.map_append,
      mirrors_preorder e c _ d hm.1, mirrorsList_preorder es cs p d hm.2]
end

/-! ## The text renderer (C1) -/

/-- C1 (as amended): `ToText t` is the concatenation, over the depth-first pre-order
walk of `t` with children in stored order, of one newline-terminated line per node
(indent, displayed name, suffix), there being one line per node; and when no displayed
name and no suffix contains a newline character, the output has exactly as many
newline-terminated lines as the tree has nodes. -/
theorem ToText_spec (t : FileTree) :
    ToText t = concat ((preorder 0 t).map (fun p => specLine p.1 p.2))
    ∧ (preorder 0 t).length = nodeCount t
    ∧ ((∀ p ∈ preorder 0 t, newlines (specDisplayName p.1 p.2) = 0 ∧ newlines (specSuffix p.2) = 0)
        → newlines (ToText t) = nodeCount t) := by
  have h1 : ToText t = concat ((preorder 0 t).map (fun p => specLine p.1 p.2)) := by
    rw [ToText, writeText_eq]; simp
  refine ⟨h1, preorder_length 0 t, fun h => ?_⟩
  rw [h1, newlines_concat_lines _ h, preorder_length]

/-- C1, witness: a directory root with one file child; no name contains a newline, and the
two nodes give two lines. -/
theorem ToText_spec_witness :
    (∀ p ∈ preorder 0 xRoot,
        newlines (specDisplayName p.1 p.2) = 0 ∧ newlines (specSuffix p.2) = 0)
    ∧ newlines (ToText xRoot) = nodeCount xRoot :=
  ⟨by decide, (ToText_spec xRoot).2.2 (by decide)⟩

/-- C1, counterexample: a one-node tree whose path contains a newline renders as two
newline-terminated lines. -/
theorem ToText_line_count_counterexample :
    ToText newlineTree = "a\nb\n" ∧ nodeCount newlineTree = 1
    ∧ newlines (ToText newlineTree) = 2
    ∧ newlines (ToText newlineTree) ≠ nodeCount newlineTree := by
  decide

/-! ## The tree builder (C2, C3, C4) -/

/-- C2 (as amended): on a freshly read directory node (a directory, not a link, no
children yet) whose listing and entries are all readable, the non-recursive `GetChildren`
returns the node with nothing changed but `Children`, which holds exactly one node per
immediate entry of the directory, in the order `ioutil.ReadDir` returns the entries:
sorted by file name, a rearrangement of what the operating system yields. Each node is
what `GetTree` reads at the entry joined to the path of the directory, and each has no
children of its own. -/
theorem GetChildren_single_level (fs : FS) (D : FileTree) (raw : List FileInfo) (fuel : Nat)
    (w : World) (hdir : D.IsDir = true) (hlink : D.IsLink = false) (hfresh : D.Children = [])
    (hlist : fs.Readdir D.path = .ok raw)
    (hread : ∀ e ∈ raw, Readable fs (Join [D.path, e.Name])) :
    ∃ listing kids w1,
      ioutil_ReadDir fs D.path = .ok listing ∧ listing.Perm raw ∧ SortedByName listing
      ∧ GetChildren fs (fuel + 1) false D w = .ok { D with Children := kids } w1
      ∧ List.Forall₂
          (fun e c => (∃ w2 w3, GetTree fs (Join [D.path, e.Name]) w2 = .ok c w3)
            ∧ c.path = Join [D.path, e.Name] ∧ c.Children = [])
          listing kids := by
  obtain ⟨new, w1, hrun, hall⟩ := GetChildren_false_ok fs D raw fuel w hdir hlink hlist hread
  refine ⟨sortByName raw, new, w1, by simp [ioutil_ReadDir, hlist], sortByName_perm raw,
    sortByName_sorted raw, ?_, ?_⟩
  · rw [hrun, hfresh, List.nil_append]
  · refine hall.imp ?_
    rintro e c ⟨w2, w3, hg⟩
    obtain ⟨info, -, hp, -, -, -, -, -, hch, -⟩ := GetTree_ok_inv hg
    exact ⟨⟨w2, w3, hg⟩, hp, hch⟩

/-- C2, witness: the directory `/tmp/a` of `linkFS`; its three entries come out sorted by
name and without children, although `b` holds a file. -/
theorem GetChildren_single_level_witness :
    ∃ listing kids w1,
      ioutil_ReadDir linkFS linkRoot.path = .ok listing
      ∧ listing.Perm [⟨"f.txt", 10, sampleTime, false, false⟩, ⟨"ln", 1, sampleTime, false, true⟩,
          ⟨"b", 4096, sampleTime, true, false⟩]
      ∧ SortedByName listing
      ∧ GetChildren linkFS (0 + 1) false linkRoot World.start
          = .ok { linkRoot with Children := kids } w1
      ∧ List.Forall₂
          (fun e c => (∃ w2 w3, GetTree linkFS (Join [linkRoot.path, e.Name]) w2 = .ok c w3)
            ∧ c.path = Join [linkRoot.path, e.Name] ∧ c.Children = [])
          listing kids :=
  GetChildren_single_level linkFS linkRoot _ 0 World.start rfl rfl rfl rfl (by
    intro e he
    simp only [List.mem_cons, List.mem_singleton, List.not_mem_nil, or_false] at he
    rcases he with rfl | rfl | rfl
    · exact ⟨⟨"f.txt", 10, sampleTime, false, false⟩, rfl, by simp⟩
    · exact ⟨⟨"ln", 1, sampleTime, false, true⟩, rfl, fun _ => ⟨"b", rfl⟩⟩
    · exact ⟨⟨"b", 4096, sampleTime, true, false⟩, rfl, by simp⟩)

/-- C2, counterexample: in the scenario file system the operating system yields the
entries of `/tmp/a` in the order `f.txt`, `b`, and the non-recursive `GetChildren` on the
freshly read node leaves the children in the order `b`, `f.txt`. -/
theorem GetChildren_listing_order_counterexample :
    ∃ D w0 D1 w1 raw,
      GetTree (scenarioFS sampleTime false) "/tmp/a" World.start = .ok D w0
      ∧ (scenarioFS sampleTime false).Readdir D.path = .ok raw
      ∧ GetChildren (scenarioFS sampleTime false) 1 false D w0 = .ok D1 w1
      ∧ raw.map (fun e => e.Name) = ["f.txt", "b"]
      ∧ D1.Children.map (fun c => c.Name) = ["b", "f.txt"]
      ∧ D1.Children.map (fun c => c.Name) ≠ raw.map (fun e => e.Name) :=
  ⟨_, _, _, _, _, rfl, rfl, rfl, rfl, rfl, by decide⟩

/-- C3: in every tree that `GetTree` followed by `GetChildren` produces, for either value
of the recursive flag, every node that is a symbolic link has no children and every node
that is not a directory has no children; and `GetChildren` run on a symbolic link or on a
non-directory returns that node unchanged, without touching the outside. -/
theorem leaves_have_no_children (fs : FS) (pth : String) (recursive : Bool) (fuel : Nat)
    (w : World) (t : FileTree) (w1 : World)
    (h : buildTree fs pth recursive fuel w = .ok t w1) :
    (∀ n ∈ nodes t, (n.IsLink = true → n.Children = []) ∧ (n.IsDir = false → n.Children = []))
    ∧ (∀ (f : FileTree) (k : Nat) (w0 : World), f.IsLink = true ∨ f.IsDir = false →
        GetChildren fs (k + 1) recursive f w0 = .ok f w0) := by
  exact ⟨buildTree_leafRule h, fun f k w0 hf => GetChildren_leaf fs k recursive f w0 hf⟩

/-- C3, witness: the recursive build of `/tmp/a` in `linkFS`, whose link `ln` points to a
directory. -/
theorem leaves_have_no_children_witness :
    ∃ t w1, buildTree linkFS "/tmp/a" true 3 World.start = .ok t w1
      ∧ ToText t = "/tmp/a/\n  b/\n    g.txt\n  f.txt\n  ln* (/tmp/a/b)\n"
      ∧ ∀ n ∈ nodes t, (n.IsLink = true → n.Children = []) ∧ (n.IsDir = false → n.Children = []) :=
  ⟨_, _, rfl, rfl, (leaves_have_no_children linkFS "/tmp/a" true 3 World.start _ _ rfl).1⟩

/-- C4: when the file system shows a finite hierarchy `h` at `pth` (in particular a readable
directory with finitely nested real subdirectories), the recursive build terminates: with
any fuel above the depth of `h` it returns one and the same tree. The depth of that tree
is the depth of `h`; listed in pre-order, its nodes are exactly the entries of `h`, each
at its depth and with its path; and no symbolic link in it has children, whatever the
file system lists behind the link. -/
theorem GetChildren_recursive_full_depth (fs : FS) (pth : String) (h : Hier) (w : World)
    (hd : Describes fs pth h) :
    ∃ t w1, (∀ fuel, hierDepth h + 1 ≤ fuel → buildTree fs pth true fuel w = .ok t w1)
      ∧ treeDepth t = hierDepth h
      ∧ (preorder 0 t).map nodeView = (hierPreorder 0 pth h).map entryView
      ∧ (∀ n ∈ nodes t, n.IsLink = true → n.Children = []) := by
  obtain ⟨f, w0, hg⟩ := GetTree_ok_of_readable w (describes_readable hd)
  obtain ⟨hcar, hch⟩ := carries_of_describes hd hg
  obtain ⟨t, w1, hrun, hmir⟩ := expand_mirrors fs h pth f (hierDepth h + 1) w0 hd hcar hch
    (Nat.le_refl _)
  have hbuild : ∀ fuel, hierDepth h + 1 ≤ fuel → buildTree fs pth true fuel w = .ok t w1 := by
    intro fuel hfuel
    unfold buildTree
    simp only [hg]
    exact GetChildren_fuel_mono fs true _ f w0 t w1 hrun fuel hfuel
  exact ⟨t, w1, hbuild, mirrors_depth h t pth hmir, mirrors_preorder h t pth 0 hmir,
    fun n hn => (buildTree_leafRule (hbuild _ (Nat.le_refl _)) n hn).1⟩

/-- C4, witness: `linkFS` shows `linkHier` at `/tmp/a`. The link `ln` points to the
directory `b`, and the file system lists `g.txt` behind it, yet the tree has depth 2 and
`ln` stays a leaf. -/
theorem GetChildren_recursive_full_depth_witness :
    Describes linkFS "/tmp/a" linkHier ∧ hierDepth linkHier = 2
    ∧ (∃ behind, linkFS.Readdir "/tmp/a/ln" = .ok behind ∧ behind.length = 1)
    ∧ ∃ t w1, (∀ fuel, hierDepth linkHier + 1 ≤ fuel →
          buildTree linkFS "/tmp/a" true fuel World.start = .ok t w1)
      ∧ treeDepth t = hierDepth linkHier
      ∧ (preorder 0 t).map nodeView = (hierPreorder 0 "/tmp/a" linkHier).map entryView
      ∧ (∀ n ∈ nodes t, n.IsLink = true → n.Children = []) :=
  have hd : Describes linkFS "/tmp/a" linkHier := by
    unfold linkHier
    rw [Describes]
    refine ⟨rfl, rfl, rfl, ⟨_, rfl, rfl⟩, ?_⟩
    rw [DescribesList, DescribesList, DescribesList, DescribesList, Describes, Describes,
      Describes]
    refine ⟨⟨rfl, rfl, rfl, ⟨_, rfl, rfl⟩, ?_⟩, ⟨rfl, Or.inl rfl, ?_⟩, ⟨rfl, Or.inr rfl, ?_⟩,
      trivial⟩
    · rw [DescribesList, DescribesList, Describes]
      exact ⟨⟨rfl, Or.inl rfl, fun h => absurd h (by decide)⟩, trivial⟩
    · exact fun h => absurd h (by decide)
    · exact fun _ => ⟨"b", rfl⟩
  ⟨hd, by decide, ⟨_, rfl, rfl⟩,
    GetChildren_recursive_full_depth linkFS "/tmp/a" linkHier World.start hd⟩

/-! ## The metadata reader on links (C5) -/

/-- C5, the code at the failing input: the link `/tmp/a/l` with target text `/etc/passwd`
is read as linking to `/tmp/a/etc/passwd`. -/
theorem GetTree_absolute_link_target :
    ∃ f w, GetTree absLinkFS "/tmp/a/l" World.start = .ok f w
      ∧ f.IsLink = true ∧ f.LinksTo = "/tmp/a/etc/passwd" ∧ f.LinksTo ≠ "/etc/passwd" :=
  ⟨_, _, rfl, rfl, rfl, by decide⟩

/-! ## The structured renderers (C6, C8) -/

/-- C6: the structured renderers read only the children of the root and only public
fields: two trees whose `Children` agree recursively on all public fields get the same
JSON result and the same YAML result (text and effect on standard output), whatever the
roots' own fields and whatever the `path` fields are. -/
theorem structured_renderers_public_children_only
    (yaml_Marshal : GoValue → Except String String) (t1 t2 : FileTree) (w : World)
    (h : publicEqList t1.Children t2.Children) :
    ToJson t1 w = ToJson t2 w ∧ ToYaml yaml_Marshal t1 w = ToYaml yaml_Marshal t2 w := by
  unfold ToJson ToYaml
  rw [exportedList_congr _ _ h]
  exact ⟨rfl, rfl⟩

/-- C6, witness: two roots with different name, size, directory flag and path, whose
children differ in `path` only. -/
theorem structured_renderers_public_children_only_witness :
    publicEqList xRoot.Children [xFile sampleTime "/elsewhere/x"]
    ∧ ToJson xRoot World.start
        = ToJson { xFile sampleTime "q" with Children := [xFile sampleTime "/elsewhere/x"] } World.start
    ∧ ToYaml (fun _ => .ok "") xRoot World.start
        = ToYaml (fun _ => .ok "")
            { xFile sampleTime "q" with Children := [xFile sampleTime "/elsewhere/x"] } World.start :=
  have h : publicEqList xRoot.Children [xFile sampleTime "/elsewhere/x"] := by
    simp [xRoot, xFile, publicEqList, publicEq]
  ⟨h, structured_renderers_public_children_only (fun _ => .ok "") xRoot
    { xFile sampleTime "q" with Children := [xFile sampleTime "/elsewhere/x"] } World.start h⟩

set_option maxRecDepth 100000 in
/-- C8 (as amended): for a root whose only child is a regular file named `x` of size 5,
`ToJson` returns an array with exactly one object, whose members are, in this order,
`ModifiedTime`, `IsLink` false, `IsDir` false, `LinksTo` empty, `Size` 5, `Name` `x` and
`Children` null; nothing of the root is in the output and nothing is printed. -/
theorem ToJson_one_file (root : FileTree) (mt path : String) (w : World) :
    ToJson { root with Children := [xFile ⟨.ok mt⟩ path] } w
      = ("[\n    \x7b\n        \"ModifiedTime\": " ++ mt
          ++ ",\n        \"IsLink\": false,\n        \"IsDir\": false,\n        \"LinksTo\": \"\",\n        \"Size\": 5,\n        \"Name\": \"x\",\n        \"Children\": null\n    \x7d\n]", w) := by
  unfold ToJson json_MarshalIndent
  simp only [exportedList, exported, xFile, jsonEncode, jsonMembers, jsonElems]
  congr 1
  apply String.ext
  simp only [String.data_append, List.append_assoc]
  rfl

/-- C8, counterexample: the JSON text for such a root has no member named `name`,
`size`, `isDirectory` or `isSymlink`. -/
theorem ToJson_one_file_counterexample :
    occursIn "\"name\"".data (ToJson xRoot World.start).1.data = false
    ∧ occursIn "\"size\"".data (ToJson xRoot World.start).1.data = false
    ∧ occursIn "\"isDirectory\"".data (ToJson xRoot World.start).1.data = false
    ∧ occursIn "\"isSymlink\"".data (ToJson xRoot World.start).1.data = false := by
  decide

/-! ## The text scenario (C7) -/

/-- C7 (as amended): in the scenario, whichever order the operating system yields the
entries in, the non-recursive text output is exactly the lines `/tmp/a/`, `  b/`,
`  f.txt` (entries sorted by name, no line for `g.txt`), and the recursive output is
`/tmp/a/`, `  b/`, `    g.txt`, `  f.txt`. -/
theorem scenario_text (mt : Time) (swap : Bool) (fuel : Nat) :
    textOf (buildTree (scenarioFS mt swap) "/tmp/a" false (fuel + 1) World.start)
      = some "/tmp/a/\n  b/\n  f.txt\n"
    ∧ textOf (buildTree (scenarioFS mt swap) "/tmp/a" true (fuel + 3) World.start)
      = some "/tmp/a/\n  b/\n    g.txt\n  f.txt\n" := by
  cases swap <;> constructor <;> rfl

/-- C7, counterexample: with the entries yielded in the order `f.txt`, `b`, the
non-recursive output is not the three lines `/tmp/a/`, `  f.txt`, `  b/`. -/
theorem scenario_text_counterexample :
    textOf (buildTree (scenarioFS sampleTime false) "/tmp/a" false 1 World.start)
      ≠ some "/tmp/a/\n  f.txt\n  b/\n" := by
  have h : textOf (buildTree (scenarioFS sampleTime false) "/tmp/a" false 1 World.start)
      = some "/tmp/a/\n  b/\n  f.txt\n" := rfl
  rw [h]
  decide

/-! ## The command line (C9, C10) -/

/-- C9 (as amended): when `--path` is omitted or empty, whatever the other flags and the
file system, the program exits with status 1, has written exactly the line
`Must specify path.` to standard output, and has made no operating-system call. -/
theorem main_missing_path (fs : FS) (yaml_Marshal : GoValue → Except String String)
    (args : Args) (fuel : Nat) (hpath : args.path = none ∨ args.path = some "") :
    main fs yaml_Marshal args fuel
      = .exit 1 { stdout := "Must specify path.\n", calls := [] } := by
  unfold main
  rcases hpath with h | h <;> rw [h] <;> rfl

/-- C9, witness: `--recursive --output json` without `--path`. -/
theorem main_missing_path_witness :
    main linkFS (fun _ => .ok "") ⟨none, some true, some "json"⟩ 5
      = .exit 1 { stdout := "Must specify path.\n", calls := [] } :=
  main_missing_path linkFS (fun _ => .ok "") ⟨none, some true, some "json"⟩ 5 (Or.inl rfl)

/-- C9, counterexample: with `--path` omitted the program does write to standard
output. -/
theorem main_missing_path_counterexample :
    ∃ w, (main linkFS (fun _ => .ok "") ⟨none, none, none⟩ 0).world = some w
      ∧ (main linkFS (fun _ => .ok "") ⟨none, none, none⟩ 0).status = some 1
      ∧ w.stdout ≠ "" :=
  ⟨_, rfl, rfl, by decide⟩

/-- C10: with a non-empty `--path` and an `--output` other than `text`, `json`, `yaml`, the
program exits with status 2 having made no operating-system call (so `GetTree` was never
invoked); the outcome is the same on every file system. -/
theorem main_invalid_output (fs : FS) (yaml_Marshal : GoValue → Except String String)
    (args : Args) (fuel : Nat) (pth output : String)
    (hpath : args.path = some pth) (hpth : pth ≠ "")
    (houtput : args.output = some output)
    (hout : output ≠ "text" ∧ output ≠ "json" ∧ output ≠ "yaml") :
    main fs yaml_Marshal args fuel
        = .exit 2 { stdout := "Invalid output format:  " ++ output ++ "\n", calls := [] }
    ∧ ∀ fs2 : FS, main fs2 yaml_Marshal args fuel = main fs yaml_Marshal args fuel := by
  have key : ∀ fs1 : FS, main fs1 yaml_Marshal args fuel
      = .exit 2 { stdout := "Invalid output format:  " ++ output ++ "\n", calls := [] } := by
    intro fs1
    unfold main
    simp [hpath, houtput, hpth, hout, Println, World.start, String.intercalate,
      String.intercalate.go]
  exact ⟨key fs, fun fs2 => by rw [key fs2, key fs]⟩

/-- C10, witness: `--path /tmp/a --recursive --output xml`. -/
theorem main_invalid_output_witness :
    main linkFS (fun _ => .ok "") ⟨some "/tmp/a", some true, some "xml"⟩ 5
        = .exit 2 { stdout := "Invalid output format:  xml\n", calls := [] } :=
  (main_invalid_output linkFS (fun _ => .ok "") ⟨some "/tmp/a", some true, some "xml"⟩ 5
    "/tmp/a" "xml" rfl (by decide) rfl (by decide)).1

end FileLister
